import Mathlib

/-!
Verification of the isucon-restruct source restructuring tool
(src/src/bin/isucon-restruct.rs) against its specification.

The Rust program is shallowly embedded below.  Strings are modelled as
lists of Unicode scalar values (`Str := List Char`); Rust byte indices
into UTF-8 text are modelled as `Nat` byte offsets computed from
`Char.utf8Size`, so slicing by byte offset is meaningful.  Parser spans
(from the external syn parser) enter the classifier as byte offsets: the
program converts the parser-reported (line, column) locations with
`byte_offset`, which is modelled and verified separately.  Fallible
steps (the unwrap inside `byte_offset`) are modelled with `Option`.
-/

namespace Restruct

/-- Text is modelled as the list of its Unicode scalar values. -/
abbrev Str := List Char

/-- Embed a Lean string literal into the model. -/
def lit (s : String) : Str := s.toList

/-- Number of bytes of the UTF-8 encoding of a character list. -/
def utf8Len : Str → Nat
  | [] => 0
  | c :: rest => c.utf8Size + utf8Len rest

theorem utf8Len_append (a b : Str) : utf8Len (a ++ b) = utf8Len a + utf8Len b := by
  induction a with
  | nil => simp [utf8Len]
  | cons c rest ih => simp [utf8Len, ih]; omega

theorem utf8Size_pos (c : Char) : 0 < c.utf8Size := by
  have := Char.utf8Size_pos c
  omega

/-- Drop the characters occupying the first `n` bytes of the text
(model of taking the Rust byte-slice suffix at a character boundary;
at a non-boundary offset the Rust slice panics, here the partial
character is dropped, which no modelled code path exercises). -/
def dropBytes : Str → Nat → Str
  | [], _ => []
  | c :: rest, n => if c.utf8Size ≤ n then dropBytes rest (n - c.utf8Size) else c :: rest

/-- Take the characters occupying the first `n` bytes of the text. -/
def takeBytes : Str → Nat → Str
  | [], _ => []
  | c :: rest, n => if c.utf8Size ≤ n then c :: takeBytes rest (n - c.utf8Size) else []

/-- Model of the Rust byte-range slice `input[a..b]`. -/
def sliceBytes (s : Str) (a b : Nat) : Str := takeBytes (dropBytes s a) (b - a)

theorem dropBytes_zero (s : Str) : dropBytes s 0 = s := by
  cases s with
  | nil => rfl
  | cons c rest =>
    have := utf8Size_pos c
    simp [dropBytes]
    omega

theorem dropBytes_append (p r : Str) : dropBytes (p ++ r) (utf8Len p) = r := by
  induction p with
  | nil => simpa [utf8Len] using dropBytes_zero r
  | cons c rest ih => simp [dropBytes, utf8Len, ih]

theorem takeBytes_append (p r : Str) : takeBytes (p ++ r) (utf8Len p) = p := by
  induction p with
  | nil =>
    cases r with
    | nil => rfl
    | cons c rest =>
      have := utf8Size_pos c
      simp [takeBytes, utf8Len]
      omega
  | cons c rest ih => simp [takeBytes, utf8Len, ih]

theorem sliceBytes_spec (p m r : Str) :
    sliceBytes (p ++ m ++ r) (utf8Len p) (utf8Len p + utf8Len m) = m := by
  unfold sliceBytes
  rw [List.append_assoc, dropBytes_append]
  simpa [utf8Len_append] using takeBytes_append m r

/-- A parser-reported source location (proc_macro2 LineColumn):
1-based line, 0-based column counted in Unicode scalar values. -/
structure LineColumn where
  line : Nat
  column : Nat

/-- Byte index of the first line break in the text, if any
(model of the Rust find on a string slice, which reports bytes). -/
def findNewline : Str → Option Nat
  | [] => none
  | c :: rest =>
    if c = '\n' then some 0 else (findNewline rest).map (· + c.utf8Size)

/-- The loop of byte_offset: starting from byte `offset`, advance past
one line break per iteration.  The source unwraps the find result and
panics when no further line break exists; that is modelled by none. -/
def byteOffsetLoop (input : Str) (offset : Nat) : Nat → Option Nat
  | 0 => some offset
  | k + 1 =>
    match findNewline (dropBytes input offset) with
    | some i => byteOffsetLoop input (offset + i + 1) k
    | none => none

/-- Model of byte_offset (source lines 44-55): scan for line breaks to
locate the start of the requested line, then advance by the column
counted in Unicode scalar values, summing their UTF-8 lengths. -/
def byte_offset (input : Str) (location : LineColumn) : Option Nat :=
  (byteOffsetLoop input 0 (location.line - 1)).map fun offset =>
    offset + utf8Len ((dropBytes input offset).take location.column)

/-- Specification-side helper: the text after the first line break. -/
def afterNewline : Str → Option Str
  | [] => none
  | c :: rest => if c = '\n' then some rest else afterNewline rest

/-- Specification-side helper: the remainder of the text after
skipping the given number of whole lines. -/
def dropLinesCh : Str → Nat → Option Str
  | cs, 0 => some cs
  | cs, k + 1 =>
    match afterNewline cs with
    | some rest => dropLinesCh rest k
    | none => none

theorem findNewline_afterNewline (cs : Str) :
    (findNewline cs = none ∧ afterNewline cs = none) ∨
      ∃ a rest, cs = a ++ '\n' :: rest ∧ findNewline cs = some (utf8Len a) ∧
        afterNewline cs = some rest := by
  induction cs with
  | nil => exact Or.inl ⟨rfl, rfl⟩
  | cons c rest ih =>
    by_cases hc : c = '\n'
    · subst hc
      exact Or.inr ⟨[], rest, by simp [findNewline, afterNewline, utf8Len]⟩
    · rcases ih with ⟨hf, ha⟩ | ⟨a, rest', heq, hf, ha⟩
      · exact Or.inl ⟨by simp [findNewline, hc, hf], by simp [afterNewline, hc, ha]⟩
      · refine Or.inr ⟨c :: a, rest', by simp [heq], ?_, ?_⟩
        · simp [findNewline, hc, hf, utf8Len]
          omega
        · simp [afterNewline, hc, ha]

theorem afterNewline_utf8Len_le (cs r : Str) (h : afterNewline cs = some r) :
    utf8Len r ≤ utf8Len cs := by
  rcases findNewline_afterNewline cs with ⟨_, ha⟩ | ⟨a, rest', heq, _, ha⟩
  · rw [h] at ha; cases ha
  · rw [h] at ha
    cases ha
    subst heq
    simp [utf8Len_append, utf8Len]
    omega

theorem dropLinesCh_utf8Len_le (k : Nat) :
    ∀ cs r : Str, dropLinesCh cs k = some r → utf8Len r ≤ utf8Len cs := by
  induction k with
  | zero =>
    intro cs r h
    simp [dropLinesCh] at h
    subst h
    exact Nat.le_refl _
  | succ k ih =>
    intro cs r h
    simp only [dropLinesCh] at h
    cases ha : afterNewline cs with
    | none => rw [ha] at h; cases h
    | some rest =>
      rw [ha] at h
      exact Nat.le_trans (ih rest r h) (afterNewline_utf8Len_le cs rest ha)

theorem byteOffsetLoop_spec (k : Nat) :
    ∀ pre rest : Str,
      byteOffsetLoop (pre ++ rest) (utf8Len pre) k =
        (dropLinesCh rest k).map fun r => utf8Len pre + (utf8Len rest - utf8Len r) := by
  induction k with
  | zero =>
    intro pre rest
    simp [byteOffsetLoop, dropLinesCh]
  | succ k ih =>
    intro pre rest
    rcases findNewline_afterNewline rest with ⟨hf, ha⟩ | ⟨a, rest', heq, hf, ha⟩
    · simp [byteOffsetLoop, dropBytes_append, hf, dropLinesCh, ha]
    · subst heq
      have hnl : '\n'.utf8Size = 1 := by decide
      have hlen : utf8Len pre + utf8Len a + 1 = utf8Len (pre ++ a ++ ['\n']) := by
        simp [utf8Len_append, utf8Len]
        omega
      have hassoc : pre ++ (a ++ '\n' :: rest') = (pre ++ a ++ ['\n']) ++ rest' := by simp
      have hstep := ih (pre ++ a ++ ['\n']) rest'
      simp only [byteOffsetLoop, dropBytes_append, hf]
      rw [hassoc, hlen, hstep]
      simp only [dropLinesCh, ha]
      cases hdl : dropLinesCh rest' k with
      | none => simp
      | some r =>
        have hsub : utf8Len r ≤ utf8Len rest' := dropLinesCh_utf8Len_le k rest' r hdl
        have hr : utf8Len (a ++ '\n' :: rest') = utf8Len a + 1 + utf8Len rest' := by
          simp [utf8Len_append, utf8Len]
          omega
        simp only [Option.map_some', Option.some.injEq]
        rw [← hlen, hr]
        omega

theorem dropLinesCh_exists_prefix (k : Nat) :
    ∀ cs rest : Str, dropLinesCh cs k = some rest → ∃ p, cs = p ++ rest := by
  induction k with
  | zero =>
    intro cs rest h
    simp [dropLinesCh] at h
    exact ⟨[], by simp [h]⟩
  | succ k ih =>
    intro cs rest h
    simp only [dropLinesCh] at h
    cases ha : afterNewline cs with
    | none => rw [ha] at h; cases h
    | some mid =>
      rw [ha] at h
      rcases findNewline_afterNewline cs with ⟨_, ha'⟩ | ⟨a, rest', heq, _, ha'⟩
      · rw [ha] at ha'; cases ha'
      · rw [ha] at ha'
        cases ha'
        rcases ih mid rest h with ⟨p, hp⟩
        exact ⟨a ++ '\n' :: p, by simp [heq, hp]⟩

theorem take_length_add_append (p r : Str) (n : Nat) :
    (p ++ r).take (p.length + n) = p ++ r.take n := by
  induction p with
  | nil => simp
  | cons c rest ih => simp [List.take, ih, Nat.succ_add]

/-- C8: for a (line, column) location valid for this text (the first
line - 1 lines can be skipped, leaving the remainder of the requested
line), byte_offset returns the byte index of the start of that line
plus the sum of the UTF-8 encoded lengths of the first column Unicode
scalar values of that line's remainder; the result is always the byte
length of a character-boundary prefix of the text, hence a valid byte
index into it. -/
theorem byte_offset_scalar_units (input : Str) (line column : Nat) (rest : Str)
    (h : dropLinesCh input (line - 1) = some rest) :
    byte_offset input ⟨line, column⟩
      = some ((utf8Len input - utf8Len rest) + utf8Len (rest.take column))
    ∧ ∃ k, (utf8Len input - utf8Len rest) + utf8Len (rest.take column)
        = utf8Len (input.take k) := by
  rcases dropLinesCh_exists_prefix (line - 1) input rest h with ⟨p, hp⟩
  have hloop : byteOffsetLoop input 0 (line - 1) =
      (dropLinesCh input (line - 1)).map fun r => 0 + (utf8Len input - utf8Len r) := by
    have := byteOffsetLoop_spec (line - 1) [] input
    simpa [utf8Len] using this
  have hoff : utf8Len input - utf8Len rest = utf8Len p := by
    rw [hp, utf8Len_append]
    omega
  constructor
  · unfold byte_offset
    rw [hloop, h]
    simp only [Option.map_some', Nat.zero_add, Option.some.injEq]
    rw [hoff, hp, dropBytes_append]
  · refine ⟨p.length + column, ?_⟩
    rw [hoff, hp, take_length_add_append, utf8Len_append]

/-- The Fragment tagged union (source lines 12-42). -/
inductive Fragment where
  | EntryPoint (content : Str)
  | ApiResource (name : Str) (content : Str)
  | Function (name : Str) (content : Str)
  | Model (name : Str) (content : Str)
  | Const (content : Str)
  | Use (content : Str)
  | Mod (name : Str) (fragments : Option (List Fragment))
  | Common (content : Str)

/-- The forward-only text cursor (source lines 57-71). -/
structure ParseContext where
  input : Str
  current_offset : Nat

def ParseContext.update_offset (ctx : ParseContext) (offset : Nat) : ParseContext :=
  { ctx with current_offset := offset }

def ParseContext.text_between (ctx : ParseContext) (offset : Nat) : Str :=
  sliceBytes ctx.input ctx.current_offset offset

/-- Visibility of a declaration, with its token serialization
(syn Visibility; Inherited serializes to the empty string). -/
inductive Vis where
  | inherited
  | pub
  | restricted (tokens : Str)

def visTok : Vis → Str
  | .inherited => []
  | .pub => lit "pub"
  | .restricted tokens => tokens

/-- A parser span, given as byte offsets into the original text: the
composition of the parser-reported LineColumn endpoints with
byte_offset (verified separately above). -/
structure SpanB where
  start : Nat
  stop : Nat

/-- A statement of a function body: its span plus the serialized token
text produced by the external serializer. -/
structure Stmt where
  start : Nat
  stop : Nat
  tokens : Str

/-- A function signature: the identifier string and the serialized
signature tokens. -/
structure FnSig where
  ident : Str
  tokens : Str

/-- A function body: the byte offset just past the opening brace, and
the statements. -/
structure Block where
  brace_open_end : Nat
  stmts : List Stmt

/-- A parsed function item (syn ItemFn), with the fields the program
reads: attribute token strings, visibility, signature, body. -/
structure ItemFn where
  attrs : List Str
  vis : Vis
  sig : FnSig
  block : Block

/-- Join a list of strings with a separator (itertools join). -/
def joinSep (sep : Str) : List Str → Str
  | [] => []
  | [s] => s
  | s :: rest => s ++ sep ++ joinSep sep rest

/-- Join with a line break, the separator used throughout the program. -/
def joinNL (l : List Str) : Str := joinSep (lit "\n") l

/-- The statement loop of parse_fn_code (source lines 94-102): for each
statement capture the trivia between the cursor and the statement start,
append it and the statement tokens, advance the cursor past the
statement. -/
def parseStmts (ctx : ParseContext) : List Stmt → ParseContext × Str
  | [] => (ctx, [])
  | stmt :: rest =>
    let comment := ctx.text_between stmt.start
    let ctx1 := ctx.update_offset stmt.stop
    let pr := parseStmts ctx1 rest
    (pr.1, comment ++ stmt.tokens ++ pr.2)

/-- Model of parse_fn_code (source lines 73-107): serialize attributes,
visibility, signature, then walk the body statement-by-statement with
trivia preserved. -/
def parse_fn_code (ctx : ParseContext) (item : ItemFn) : ParseContext × Str :=
  let header := joinSep [] item.attrs ++ lit " " ++ visTok item.vis ++ lit " "
    ++ item.sig.tokens ++ lit " " ++ lit "\x7b"
  let ctx1 := ctx.update_offset item.block.brace_open_end
  let pr := parseStmts ctx1 item.block.stmts
  (pr.1, header ++ pr.2 ++ lit "\x7d")

/-- The parsed declaration sequence handed to the classifier: one
constructor per syn Item variant the program matches on, carrying the
span and exactly the fields the program reads.  For the variants whose
whole token stream is re-serialized after visibility promotion
(struct, enum, const, static, trait, trait alias, type alias, union),
the tokens field is that post-promotion serialization, produced by the
external serializer. -/
inductive Item where
  | fn (span : SpanB) (item : ItemFn)
  | struct (span : SpanB) (ident : Str) (tokens : Str)
  | enum (span : SpanB) (ident : Str) (tokens : Str)
  | const (span : SpanB) (tokens : Str)
  | impl (span : SpanB) (self_ty : Str) (tokens : Str)
  | macroCall (span : SpanB) (tokens : Str)
  | mod (span : SpanB) (ident : Str) (content : Option (Nat × List Item))
  | static (span : SpanB) (tokens : Str)
  | trait (span : SpanB) (ident : Str) (tokens : Str)
  | traitAlias (span : SpanB) (ident : Str) (tokens : Str)
  | typeAlias (span : SpanB) (ident : Str) (tokens : Str)
  | use (span : SpanB) (tokens : Str)
  | union (span : SpanB) (ident : Str) (tokens : Str)
  | other (span : SpanB) (tokens : Str)

/-- Modelled from the spec: the external text-case normalizer
(heck ToSnakeCase), which converts an identifier to its canonical
lowercase underscore-separated form.  Simplified ASCII model: an
underscore is inserted before each non-initial uppercase letter and
all uppercase letters are lowercased; it agrees with the external
crate on camelCase identifiers without consecutive uppercase letters. -/
def snakeAux : Bool → Str → Str
  | _, [] => []
  | first, c :: rest =>
    (if c.isUpper then (if first then [c.toLower] else ['_', c.toLower]) else [c])
      ++ snakeAux false rest

def toSnakeCase (s : Str) : Str := snakeAux true s

/-- Model of the Rust substring test str::contains. -/
def containsSubstr (hay needle : Str) : Bool :=
  match hay with
  | [] => needle.isEmpty
  | _ :: rest => needle.isPrefixOf hay || containsSubstr rest needle

/-- The lexical handler heuristic (source lines 146-153). -/
def is_api_resource (content : Str) : Bool :=
  containsSubstr content (lit "GET") || containsSubstr content (lit "POST")
    || containsSubstr content (lit "PUT") || containsSubstr content (lit "PATCH")
    || containsSubstr content (lit "DELETE") || containsSubstr content (lit "web ::")
    || containsSubstr content (lit "HttpResponse")
    || containsSubstr content (lit "actix_web ::")

/-- The fixed marker-substring set of the heuristic, as the
specification describes it: the uppercase HTTP verb tokens and the
framework-specific tokens. -/
def apiMarkers : List Str :=
  [lit "GET", lit "POST", lit "PUT", lit "PATCH", lit "DELETE",
   lit "web ::", lit "HttpResponse", lit "actix_web ::"]

/-- The Fragment Classifier (source lines 124-265): for each
declaration capture the preceding trivia, dispatch on the declaration
kind, and advance the cursor past the declaration; namespaces with an
inline body are recursed into with the cursor moved just past their
opening brace. -/
def Fragments._parse (ctx : ParseContext) : List Item → ParseContext × List Fragment
  | [] => (ctx, [])
  | Item.fn span item :: rest =>
    let comment := ctx.text_between span.start
    let r :=
      if item.sig.ident = lit "main" then
        let pr := parse_fn_code ctx item
        (pr.1, Fragment.EntryPoint (comment ++ pr.2))
      else
        let pr := parse_fn_code ctx { item with vis := Vis.pub }
        let content := comment ++ pr.2
        (pr.1, if is_api_resource content then Fragment.ApiResource item.sig.ident content
            else Fragment.Function item.sig.ident content)
    let ctx2 := r.1.update_offset span.stop
    let pr2 := Fragments._parse ctx2 rest
    (pr2.1, r.2 :: pr2.2)
  | Item.struct span ident tokens :: rest =>
    let comment := ctx.text_between span.start
    let frag := Fragment.Model (toSnakeCase ident) (comment ++ tokens)
    let ctx2 := ctx.update_offset span.stop
    let pr := Fragments._parse ctx2 rest
    (pr.1, frag :: pr.2)
  | Item.enum span ident tokens :: rest =>
    let comment := ctx.text_between span.start
    let frag := Fragment.Model (toSnakeCase ident) (comment ++ tokens)
    let ctx2 := ctx.update_offset span.stop
    let pr := Fragments._parse ctx2 rest
    (pr.1, frag :: pr.2)
  | Item.const span tokens :: rest =>
    let comment := ctx.text_between span.start
    let frag := Fragment.Const (comment ++ tokens)
    let ctx2 := ctx.update_offset span.stop
    let pr := Fragments._parse ctx2 rest
    (pr.1, frag :: pr.2)
  | Item.impl span self_ty tokens :: rest =>
    let comment := ctx.text_between span.start
    let frag := Fragment.Model (toSnakeCase self_ty) (comment ++ tokens)
    let ctx2 := ctx.update_offset span.stop
    let pr := Fragments._parse ctx2 rest
    (pr.1, frag :: pr.2)
  | Item.macroCall span tokens :: rest =>
    let comment := ctx.text_between span.start
    let frag := Fragment.Common (comment ++ tokens)
    let ctx2 := ctx.update_offset span.stop
    let pr := Fragments._parse ctx2 rest
    (pr.1, frag :: pr.2)
  | Item.mod span ident content :: rest =>
    let r :=
      match content with
      | some (brace_open_end, items) =>
        let pr := Fragments._parse (ctx.update_offset brace_open_end) items
        (pr.1, Fragment.Mod (toSnakeCase ident) (some pr.2))
      | none => (ctx, Fragment.Mod (toSnakeCase ident) none)
    let ctx2 := r.1.update_offset span.stop
    let pr2 := Fragments._parse ctx2 rest
    (pr2.1, r.2 :: pr2.2)
  | Item.static span tokens :: rest =>
    let comment := ctx.text_between span.start
    let frag := Fragment.Const (comment ++ tokens)
    let ctx2 := ctx.update_offset span.stop
    let pr := Fragments._parse ctx2 rest
    (pr.1, frag :: pr.2)
  | Item.trait span ident tokens :: rest =>
    let comment := ctx.text_between span.start
    let frag := Fragment.Model (toSnakeCase ident) (comment ++ tokens)
    let ctx2 := ctx.update_offset span.stop
    let pr := Fragments._parse ctx2 rest
    (pr.1, frag :: pr.2)
  | Item.traitAlias span ident tokens :: rest =>
    let comment := ctx.text_between span.start
    let frag := Fragment.Model (toSnakeCase ident) (comment ++ tokens)
    let ctx2 := ctx.update_offset span.stop
    let pr := Fragments._parse ctx2 rest
    (pr.1, frag :: pr.2)
  | Item.typeAlias span ident tokens :: rest =>
    let comment := ctx.text_between span.start
    let frag := Fragment.Model (toSnakeCase ident) (comment ++ tokens)
    let ctx2 := ctx.update_offset span.stop
    let pr := Fragments._parse ctx2 rest
    (pr.1, frag :: pr.2)
  | Item.use span tokens :: rest =>
    let comment := ctx.text_between span.start
    let frag := Fragment.Use (comment ++ tokens)
    let ctx2 := ctx.update_offset span.stop
    let pr := Fragments._parse ctx2 rest
    (pr.1, frag :: pr.2)
  | Item.union span ident tokens :: rest =>
    let comment := ctx.text_between span.start
    let frag := Fragment.Model (toSnakeCase ident) (comment ++ tokens)
    let ctx2 := ctx.update_offset span.stop
    let pr := Fragments._parse ctx2 rest
    (pr.1, frag :: pr.2)
  | Item.other span tokens :: rest =>
    let comment := ctx.text_between span.start
    let frag := Fragment.Common (comment ++ tokens)
    let ctx2 := ctx.update_offset span.stop
    let pr := Fragments._parse ctx2 rest
    (pr.1, frag :: pr.2)

/-- Classify a whole file: the external parser yields the item list,
the cursor starts at offset zero (source lines 267-274). -/
def Fragments.parse (input : Str) (items : List Item) : List Fragment :=
  (Fragments._parse { input := input, current_offset := 0 } items).2

def Fragment.isModel : Fragment → Bool
  | .Model _ _ => true
  | _ => false

def modelName? : Fragment → Option Str
  | Fragment.Model n _ => some n
  | _ => none

/-- Names of the Model fragments of a sequence, in order. -/
def modelNamesList (l : List Fragment) : List Str :=
  l.filterMap modelName?

def isModelNamed (n : Str) (f : Fragment) : Bool :=
  match f with
  | Fragment.Model m _ => decide (m = n)
  | _ => false

/-- The Model fragments of a sequence carrying the given name, in order. -/
def modelsNamed (l : List Fragment) (n : Str) : List Fragment :=
  l.filter (isModelNamed n)

def modelContent? (n : Str) : Fragment → Option Str
  | Fragment.Model m c => if m = n then some c else none
  | _ => none

/-- Contents of the Model fragments carrying the given name, in order. -/
def modelContents (l : List Fragment) (n : Str) : List Str :=
  l.filterMap (modelContent? n)

/-- The content extraction of the merge step (source lines 300-303). -/
def modelContentOf : Fragment → Str
  | Fragment.Model _ content => content
  | _ => []

/-- First occurrence of each element, skipping those already seen. -/
def firstSeenAux (seen : List Str) : List Str → List Str
  | [] => []
  | n :: rest => if n ∈ seen then firstSeenAux seen rest else n :: firstSeenAux (n :: seen) rest

def firstSeen (l : List Str) : List Str := firstSeenAux [] l

/-- Per-key push into the insertion-ordered association list that
models the HashMap of dedup_fragments.  The iteration order of the
Rust HashMap is unspecified; the model fixes first-insertion order,
and the properties proved below do not depend on the group order. -/
def insertGroup (m : List (Str × List Fragment)) (name : Str) (f : Fragment) :
    List (Str × List Fragment) :=
  match m with
  | [] => [(name, [f])]
  | (k, v) :: rest =>
    if k = name then (k, v ++ [f]) :: rest else (k, v) :: insertGroup rest name f

/-- The splitting loop of dedup_fragments (source lines 283-293). -/
def dedupLoop : List Fragment → List Fragment → List (Str × List Fragment) →
    List Fragment × List (Str × List Fragment)
  | [], fragments, models_by_name => (fragments, models_by_name)
  | f :: rest, fragments, models_by_name =>
    match f with
    | Fragment.Model name _ => dedupLoop rest fragments (insertGroup models_by_name name f)
    | _ => dedupLoop rest (fragments ++ [f]) models_by_name

/-- The Deduplicator (source lines 276-312): group Model fragments by
name, keep all other fragments in order, then append one merged Model
per name whose content joins the group contents with line breaks. -/
def dedup_fragments (l : List Fragment) : List Fragment :=
  let r := dedupLoop l [] []
  r.1 ++ r.2.map fun g => Fragment.Model g.1 (joinNL (g.2.map modelContentOf))

theorem firstSeenAux_congr (l : List Str) :
    ∀ s₁ s₂ : List Str, (∀ x, x ∈ s₁ ↔ x ∈ s₂) → firstSeenAux s₁ l = firstSeenAux s₂ l := by
  induction l with
  | nil => intro s₁ s₂ _; rfl
  | cons n rest ih =>
    intro s₁ s₂ h
    simp only [firstSeenAux]
    by_cases hn : n ∈ s₁
    · rw [if_pos hn, if_pos ((h n).mp hn)]
      exact ih s₁ s₂ h
    · rw [if_neg hn, if_neg (fun hc => hn ((h n).mpr hc))]
      refine congrArg (n :: ·) (ih _ _ fun x => ?_)
      simp only [List.mem_cons]
      exact or_congr Iff.rfl (h x)

theorem mem_firstSeenAux (l : List Str) :
    ∀ seen x, x ∈ firstSeenAux seen l ↔ x ∈ l ∧ x ∉ seen := by
  induction l with
  | nil => intro seen x; simp [firstSeenAux]
  | cons n rest ih =>
    intro seen x
    simp only [firstSeenAux]
    by_cases hn : n ∈ seen
    · rw [if_pos hn, ih]
      simp only [List.mem_cons]
      constructor
      · rintro ⟨h1, h2⟩
        exact ⟨Or.inr h1, h2⟩
      · rintro ⟨h1 | h1, h2⟩
        · subst h1
          exact absurd hn h2
        · exact ⟨h1, h2⟩
    · rw [if_neg hn]
      simp only [List.mem_cons, ih]
      constructor
      · rintro (rfl | ⟨h1, h2⟩)
        · exact ⟨Or.inl rfl, hn⟩
        · refine ⟨Or.inr h1, fun hc => h2 (Or.inr hc)⟩
      · rintro ⟨rfl | h1, h2⟩
        · exact Or.inl rfl
        · by_cases hx : x = n
          · exact Or.inl hx
          · exact Or.inr ⟨h1, by simp [hx, h2]⟩

theorem nodup_firstSeenAux (l : List Str) :
    ∀ seen, (firstSeenAux seen l).Nodup := by
  induction l with
  | nil => intro seen; simp [firstSeenAux]
  | cons n rest ih =>
    intro seen
    simp only [firstSeenAux]
    by_cases hn : n ∈ seen
    · rw [if_pos hn]; exact ih seen
    · rw [if_neg hn]
      refine List.Nodup.cons ?_ (ih (n :: seen))
      intro hc
      exact ((mem_firstSeenAux rest (n :: seen) n).mp hc).2 (List.mem_cons_self n seen)

theorem insertGroup_keys_mem (ms : List (Str × List Fragment)) (n : Str) (f : Fragment)
    (h : n ∈ ms.map Prod.fst) :
    (insertGroup ms n f).map Prod.fst = ms.map Prod.fst := by
  induction ms with
  | nil => simp at h
  | cons g rest ih =>
    obtain ⟨k, v⟩ := g
    simp only [insertGroup]
    by_cases hk : k = n
    · rw [if_pos hk]; rfl
    · rw [if_neg hk]
      simp only [List.map_cons, List.cons.injEq, true_and]
      refine ih ?_
      simp only [List.map_cons, List.mem_cons] at h
      rcases h with h | h
      · exact absurd h.symm hk
      · exact h

theorem insertGroup_not_mem (ms : List (Str × List Fragment)) (n : Str) (f : Fragment)
    (h : n ∉ ms.map Prod.fst) :
    insertGroup ms n f = ms ++ [(n, [f])] := by
  induction ms with
  | nil => rfl
  | cons g rest ih =>
    obtain ⟨k, v⟩ := g
    simp only [List.map_cons, List.mem_cons] at h
    push_neg at h
    simp only [insertGroup]
    rw [if_neg (fun hc => h.1 hc.symm)]
    simp [ih h.2]

theorem isModelNamed_of_not_model {f : Fragment} (h : f.isModel = false) (k : Str) :
    isModelNamed k f = false := by
  cases f <;> simp_all [Fragment.isModel, isModelNamed]

theorem modelName?_of_not_model {f : Fragment} (h : f.isModel = false) :
    modelName? f = none := by
  cases f <;> simp_all [Fragment.isModel, modelName?]

theorem modelsNamed_cons_not_model {f : Fragment} (h : f.isModel = false)
    (l : List Fragment) (k : Str) : modelsNamed (f :: l) k = modelsNamed l k := by
  simp [modelsNamed, List.filter_cons, isModelNamed_of_not_model h]

theorem modelsNamed_cons_model (n c : Str) (l : List Fragment) (k : Str) :
    modelsNamed (Fragment.Model n c :: l) k
      = if n = k then Fragment.Model n c :: modelsNamed l k else modelsNamed l k := by
  by_cases h : n = k <;> simp [modelsNamed, List.filter_cons, isModelNamed, h]

theorem modelNamesList_cons_not_model {f : Fragment} (h : f.isModel = false)
    (l : List Fragment) : modelNamesList (f :: l) = modelNamesList l := by
  simp [modelNamesList, List.filterMap_cons, modelName?_of_not_model h]

theorem modelNamesList_cons_model (n c : Str) (l : List Fragment) :
    modelNamesList (Fragment.Model n c :: l) = n :: modelNamesList l := by
  simp [modelNamesList, List.filterMap_cons, modelName?]

/-- Specification of the grouping accumulator of dedupLoop after
consuming the remaining fragment list. -/
def groupsSpec (ms : List (Str × List Fragment)) (l : List Fragment) :
    List (Str × List Fragment) :=
  (ms.map fun g => (g.1, g.2 ++ modelsNamed l g.1))
    ++ (firstSeenAux (ms.map Prod.fst) (modelNamesList l)).map fun n => (n, modelsNamed l n)

theorem groupsSpec_cons_not_model (ms : List (Str × List Fragment)) (f : Fragment)
    (h : f.isModel = false) (rest : List Fragment) :
    groupsSpec ms (f :: rest) = groupsSpec ms rest := by
  unfold groupsSpec
  simp [modelsNamed_cons_not_model h, modelNamesList_cons_not_model h]

theorem insertGroup_map_spec (rest : List Fragment) (n c : Str)
    (ms : List (Str × List Fragment)) (hnd : (ms.map Prod.fst).Nodup)
    (hn : n ∈ ms.map Prod.fst) :
    (insertGroup ms n (Fragment.Model n c)).map (fun g => (g.1, g.2 ++ modelsNamed rest g.1))
      = ms.map fun g => (g.1, g.2 ++ modelsNamed (Fragment.Model n c :: rest) g.1) := by
  induction ms with
  | nil => simp at hn
  | cons g tail ih =>
    obtain ⟨k, v⟩ := g
    simp only [List.map_cons, List.nodup_cons] at hnd
    by_cases hk : k = n
    · subst hk
      rw [show insertGroup ((k, v) :: tail) k (Fragment.Model k c)
            = (k, v ++ [Fragment.Model k c]) :: tail by simp [insertGroup]]
      simp only [List.map_cons, List.cons.injEq]
      refine ⟨by rw [modelsNamed_cons_model, if_pos rfl]; simp, ?_⟩
      refine List.map_congr_left fun g hg => ?_
      obtain ⟨a, b⟩ := g
      have hne : ¬ k = a := fun hc => hnd.1 (hc ▸ List.mem_map_of_mem Prod.fst hg)
      rw [modelsNamed_cons_model, if_neg hne]
    · simp only [insertGroup, if_neg hk, List.map_cons, List.cons.injEq]
      constructor
      · rw [modelsNamed_cons_model, if_neg (fun hc => hk hc.symm)]
      · refine ih hnd.2 ?_
        simp only [List.map_cons, List.mem_cons] at hn
        rcases hn with h | h
        · exact absurd h.symm hk
        · exact h

theorem dedupLoop_fst (l : List Fragment) :
    ∀ fs ms, (dedupLoop l fs ms).1 = fs ++ l.filter (fun f => !f.isModel) := by
  induction l with
  | nil => intro fs ms; simp [dedupLoop]
  | cons f rest ih =>
    intro fs ms
    cases f <;> simp [dedupLoop, List.filter_cons, Fragment.isModel, ih]

theorem dedupLoop_snd (l : List Fragment) :
    ∀ fs ms, (ms.map Prod.fst).Nodup → (dedupLoop l fs ms).2 = groupsSpec ms l := by
  induction l with
  | nil =>
    intro fs ms hnd
    unfold groupsSpec
    simp [dedupLoop, modelNamesList, modelsNamed, firstSeenAux]
  | cons f rest ih =>
    intro fs ms hnd
    cases f with
    | Model n c =>
      by_cases hn : n ∈ ms.map Prod.fst
      · have hkeys := insertGroup_keys_mem ms n (Fragment.Model n c) hn
        have hnd' : ((insertGroup ms n (Fragment.Model n c)).map Prod.fst).Nodup := by
          rw [hkeys]
          exact hnd
        rw [show dedupLoop (Fragment.Model n c :: rest) fs ms
              = dedupLoop rest fs (insertGroup ms n (Fragment.Model n c)) from rfl]
        rw [ih fs _ hnd']
        unfold groupsSpec
        rw [hkeys, insertGroup_map_spec rest n c ms hnd hn, modelNamesList_cons_model]
        congr 1
        rw [show firstSeenAux (ms.map Prod.fst) (n :: modelNamesList rest)
              = firstSeenAux (ms.map Prod.fst) (modelNamesList rest) by
            simp [firstSeenAux, hn]]
        refine List.map_congr_left fun n' hn' => ?_
        have hnotin := (mem_firstSeenAux _ _ _).mp hn'
        have hne : ¬ n = n' := fun h => hnotin.2 (h ▸ hn)
        rw [modelsNamed_cons_model, if_neg hne]
      · have hins := insertGroup_not_mem ms n (Fragment.Model n c) hn
        have hnd' : ((insertGroup ms n (Fragment.Model n c)).map Prod.fst).Nodup := by
          rw [hins]
          simp only [List.map_append, List.map_cons, List.map_nil]
          refine List.Nodup.append hnd (List.nodup_singleton n) ?_
          intro x hx hx2
          rw [List.mem_singleton] at hx2
          subst hx2
          exact hn hx
        rw [show dedupLoop (Fragment.Model n c :: rest) fs ms
              = dedupLoop rest fs (insertGroup ms n (Fragment.Model n c)) from rfl]
        rw [ih fs _ hnd']
        unfold groupsSpec
        rw [hins, modelNamesList_cons_model]
        simp only [List.map_append, List.map_cons, List.map_nil]
        rw [show firstSeenAux (ms.map Prod.fst) (n :: modelNamesList rest)
              = n :: firstSeenAux (n :: ms.map Prod.fst) (modelNamesList rest) by
            simp [firstSeenAux, hn]]
        rw [firstSeenAux_congr (modelNamesList rest) (ms.map Prod.fst ++ [n])
              (n :: ms.map Prod.fst) (by intro x; simp [or_comm])]
        simp only [List.map_cons]
        rw [List.append_assoc]
        congr 1
        · refine List.map_congr_left fun g hg => ?_
          obtain ⟨a, b⟩ := g
          have hne : ¬ n = a := fun h => hn (h ▸ List.mem_map_of_mem Prod.fst hg)
          rw [modelsNamed_cons_model, if_neg hne]
        · simp only [List.singleton_append, List.cons.injEq]
          constructor
          · rw [modelsNamed_cons_model, if_pos rfl]
          · refine List.map_congr_left fun n' hn' => ?_
            have hnotin := (mem_firstSeenAux _ _ _).mp hn'
            have hne : ¬ n = n' := fun h => hnotin.2 (by rw [← h]; exact List.mem_cons_self _ _)
            rw [modelsNamed_cons_model, if_neg hne]
    | EntryPoint content =>
      rw [show dedupLoop (Fragment.EntryPoint content :: rest) fs ms
            = dedupLoop rest (fs ++ [Fragment.EntryPoint content]) ms from rfl]
      rw [ih _ _ hnd, groupsSpec_cons_not_model ms (Fragment.EntryPoint content) rfl rest]
    | ApiResource name content =>
      rw [show dedupLoop (Fragment.ApiResource name content :: rest) fs ms
            = dedupLoop rest (fs ++ [Fragment.ApiResource name content]) ms from rfl]
      rw [ih _ _ hnd, groupsSpec_cons_not_model ms (Fragment.ApiResource name content) rfl rest]
    | Function name content =>
      rw [show dedupLoop (Fragment.Function name content :: rest) fs ms
            = dedupLoop rest (fs ++ [Fragment.Function name content]) ms from rfl]
      rw [ih _ _ hnd, groupsSpec_cons_not_model ms (Fragment.Function name content) rfl rest]
    | Const content =>
      rw [show dedupLoop (Fragment.Const content :: rest) fs ms
            = dedupLoop rest (fs ++ [Fragment.Const content]) ms from rfl]
      rw [ih _ _ hnd, groupsSpec_cons_not_model ms (Fragment.Const content) rfl rest]
    | Use content =>
      rw [show dedupLoop (Fragment.Use content :: rest) fs ms
            = dedupLoop rest (fs ++ [Fragment.Use content]) ms from rfl]
      rw [ih _ _ hnd, groupsSpec_cons_not_model ms (Fragment.Use content) rfl rest]
    | Mod name fragments =>
      rw [show dedupLoop (Fragment.Mod name fragments :: rest) fs ms
            = dedupLoop rest (fs ++ [Fragment.Mod name fragments]) ms from rfl]
      rw [ih _ _ hnd, groupsSpec_cons_not_model ms (Fragment.Mod name fragments) rfl rest]
    | Common content =>
      rw [show dedupLoop (Fragment.Common content :: rest) fs ms
            = dedupLoop rest (fs ++ [Fragment.Common content]) ms from rfl]
      rw [ih _ _ hnd, groupsSpec_cons_not_model ms (Fragment.Common content) rfl rest]

theorem modelsNamed_map_contentOf (l : List Fragment) (n : Str) :
    (modelsNamed l n).map modelContentOf = modelContents l n := by
  induction l with
  | nil => rfl
  | cons f rest ih =>
    cases f
    case Model m c =>
      by_cases h : m = n
        <;> simp [modelsNamed, isModelNamed, List.filter_cons, h, modelContentOf,
              modelContents, modelContent?, List.filterMap_cons,
              ih ▸ (rfl : (modelsNamed rest n).map modelContentOf = _)]
        <;> simpa [modelsNamed, modelContents] using ih
    all_goals
      simpa [modelsNamed, isModelNamed, List.filter_cons, modelContents, modelContent?,
        List.filterMap_cons] using ih

/-- Characterization of the Deduplicator: non-Model fragments in
order, then one merged Model per first-seen name. -/
theorem dedup_fragments_eq (l : List Fragment) :
    dedup_fragments l
      = l.filter (fun f => !f.isModel)
        ++ (firstSeen (modelNamesList l)).map
            (fun n => Fragment.Model n (joinNL (modelContents l n))) := by
  rw [show dedup_fragments l = (dedupLoop l [] []).1
        ++ (dedupLoop l [] []).2.map
            (fun g => Fragment.Model g.1 (joinNL (g.2.map modelContentOf))) from rfl]
  rw [dedupLoop_fst, dedupLoop_snd l [] [] (by simp)]
  unfold groupsSpec firstSeen
  simp only [List.map_nil, List.nil_append, List.map_map]
  congr 1
  refine List.map_congr_left fun n hn => ?_
  simp [Function.comp, modelsNamed_map_contentOf]

/-- C2: dedup_fragments returns all non-Model fragments first,
unmodified and in their original relative order, followed by exactly
one Model fragment per distinct name (the names are distinct, and a
merged Model exists for a name exactly when the input has a Model of
that name); each merged Model's content is the concatenation, in
first-seen order within that name, of every contributing Model's
content joined with single line breaks.  (The cross-name order among
the merged Models is fixed to first-seen order in this model; the Rust
HashMap leaves it unspecified, and the claim does not constrain it.) -/
theorem dedup_fragments_spec (l : List Fragment) :
    dedup_fragments l
      = l.filter (fun f => !f.isModel)
        ++ (firstSeen (modelNamesList l)).map
            (fun n => Fragment.Model n (joinNL (modelContents l n)))
    ∧ (firstSeen (modelNamesList l)).Nodup
    ∧ ∀ n, n ∈ firstSeen (modelNamesList l) ↔ n ∈ modelNamesList l :=
  ⟨dedup_fragments_eq l, nodup_firstSeenAux _ _,
    fun n => by simpa using mem_firstSeenAux (modelNamesList l) [] n⟩


/-- The Module output tree (source lines 315-324). -/
inductive Module where
  | EntryPoint (content : Str)
  | Lib (name : Str) (content : Str) (modules : List Module)

/-- mod_text (source lines 518-527): one declare + re-export line per
Lib module, joined with line breaks; EntryPoint modules contribute an
empty line. -/
def mod_text (ms : List Module) : Str :=
  joinNL (ms.map fun m =>
    match m with
    | Module.Lib name _ _ =>
      lit "pub mod " ++ name ++ lit "; pub use self::" ++ name ++ lit "::*;"
    | _ => [])

mutual

/-- Nesting weight of a fragment: counts inline namespace nodes. -/
def fragWeight : Fragment → Nat
  | Fragment.Mod _ (some fs) => 1 + fragsWeight fs
  | _ => 0

def fragsWeight : List Fragment → Nat
  | [] => 0
  | f :: rest => fragWeight f + fragsWeight rest

end

theorem fragsWeight_cons (f : Fragment) (rest : List Fragment) :
    fragsWeight (f :: rest) = fragWeight f + fragsWeight rest := by
  simp [fragsWeight]

theorem fragsWeight_append (a b : List Fragment) :
    fragsWeight (a ++ b) = fragsWeight a + fragsWeight b := by
  induction a with
  | nil => simp [fragsWeight]
  | cons f rest ih => simp [fragsWeight_cons, ih]; omega

theorem fragsWeight_filter_le (p : Fragment → Bool) (l : List Fragment) :
    fragsWeight (l.filter p) ≤ fragsWeight l := by
  induction l with
  | nil => simp
  | cons f rest ih =>
    rw [List.filter_cons]
    by_cases h : p f
    · rw [if_pos h, fragsWeight_cons, fragsWeight_cons]
      omega
    · rw [if_neg h, fragsWeight_cons]
      omega

theorem fragsWeight_models (names : List Str) (c : Str → Str) :
    fragsWeight (names.map fun n => Fragment.Model n (c n)) = 0 := by
  induction names with
  | nil => simp [fragsWeight]
  | cons n rest ih => simpa [fragsWeight_cons, fragWeight] using ih

theorem fragsWeight_dedup_le (l : List Fragment) :
    fragsWeight (dedup_fragments l) ≤ fragsWeight l := by
  rw [dedup_fragments_eq]
  rw [fragsWeight_append, fragsWeight_models]
  simpa using fragsWeight_filter_le (fun f => !f.isModel) l

theorem lexNatHelper {w1 n1 w2 n2 : Nat} (h : w1 < w2 ∨ (w1 = w2 ∧ n1 < n2)) :
    Prod.Lex (· < ·) (· < ·) (w1, n1) (w2, n2) := by
  rcases h with h | ⟨heq, h⟩
  · exact Prod.Lex.left _ _ h
  · subst heq
    exact Prod.Lex.right _ h

/-- The combined Use-import block (source lines 374-380). -/
def use_text (fragments : List Fragment) : Str :=
  joinNL (fragments.filterMap fun f =>
    match f with
    | Fragment.Use content => some content
    | _ => none)

/-- The import block of generated Lib modules: the Use imports plus
the implicit enclosing-scope import (source line 382). -/
def lib_use_text (fragments : List Fragment) : Str :=
  use_text fragments ++ lit "\nuse crate::*;"

/-- One child Lib module per Function fragment (source lines 384-394). -/
def functionChildren (fragments : List Fragment) : List Module :=
  fragments.filterMap fun f =>
    match f with
    | Fragment.Function name content =>
      some (Module.Lib name (lib_use_text fragments ++ content) [])
    | _ => none

/-- One child Lib module per ApiResource fragment (source lines 402-412). -/
def resourceChildren (fragments : List Fragment) : List Module :=
  fragments.filterMap fun f =>
    match f with
    | Fragment.ApiResource name content =>
      some (Module.Lib name (lib_use_text fragments ++ content) [])
    | _ => none

/-- One child Lib module per (merged) Model fragment (source lines 420-430). -/
def modelChildren (fragments : List Fragment) : List Module :=
  fragments.filterMap fun f =>
    match f with
    | Fragment.Model name content =>
      some (Module.Lib name (lib_use_text fragments ++ content) [])
    | _ => none

def functionsAgg (fragments : List Fragment) : Module :=
  Module.Lib (lit "functions") (mod_text (functionChildren fragments))
    (functionChildren fragments)

def resourcesAgg (fragments : List Fragment) : Module :=
  Module.Lib (lit "resources") (mod_text (resourceChildren fragments))
    (resourceChildren fragments)

def modelsAgg (fragments : List Fragment) : Module :=
  Module.Lib (lit "models") (mod_text (modelChildren fragments))
    (modelChildren fragments)

/-- The consts module (source lines 438-450). -/
def constsAgg (fragments : List Fragment) : Module :=
  Module.Lib (lit "consts")
    (lib_use_text fragments ++ joinNL (fragments.filterMap fun f =>
      match f with
      | Fragment.Const content => some content
      | _ => none))
    []

def commonContent (fragments : List Fragment) : Str :=
  joinNL (fragments.filterMap fun f =>
    match f with
    | Fragment.Common content => some content
    | _ => none)

/-- The optional common module (source lines 477-492). -/
def commonPart (fragments : List Fragment) : List Module :=
  if commonContent fragments = [] then []
  else [Module.Lib (lit "common") (lib_use_text fragments ++ commonContent fragments) []]

/-- The trailing block of the EntryPoint content (source lines 499-510):
the EntryPoint fragment contents and a bare namespace-declaration line
per body-less Mod fragment, joined with line breaks. -/
def entryLines (fragments : List Fragment) : Str :=
  joinNL (fragments.filterMap fun f =>
    match f with
    | Fragment.EntryPoint content => some content
    | Fragment.Mod name none => some (lit "mod " ++ name ++ lit ";")
    | _ => none)

mutual

/-- The Module Tree Builder (source lines 368-516): run the
Deduplicator, build the four aggregator modules, the optional common
module and one module per inline namespace (recursively), then append
one EntryPoint module combining the import block, the declare +
re-export lines of everything above, the EntryPoint fragment contents
and the bare namespace lines. -/
def Modules.parse (fragments : List Fragment) : List Module :=
  let fragments' := dedup_fragments fragments
  let res := [resourcesAgg fragments', functionsAgg fragments', modelsAgg fragments',
      constsAgg fragments'] ++ commonPart fragments' ++ parseModsAux fragments'
  res ++ [Module.EntryPoint
    (use_text fragments' ++ mod_text res ++ entryLines fragments')]
termination_by (fragsWeight fragments, (dedup_fragments fragments).length + 1)
decreasing_by
  have h1 := fragsWeight_dedup_le fragments
  exact lexNatHelper (by omega)

/-- The recursive pass over Mod fragments (source lines 452-473). -/
def parseModsAux : List Fragment → List Module
  | [] => []
  | Fragment.Mod name (some fs) :: rest =>
    let ms := Modules.parse fs
    Module.Lib name (mod_text ms) ms :: parseModsAux rest
  | _ :: rest => parseModsAux rest
termination_by l => (fragsWeight l, l.length)
decreasing_by
  · refine lexNatHelper (Or.inl ?_)
    rw [fragsWeight_cons]
    simp only [fragWeight]
    omega
  · refine lexNatHelper ?_
    rw [fragsWeight_cons]
    simp only [List.length_cons]
    omega
  · refine lexNatHelper ?_
    rw [fragsWeight_cons]
    simp only [List.length_cons]
    omega

end


/-- The Module list of one level before the EntryPoint module is
appended: aggregators, optional common module, nested namespaces. -/
def resAll (fragments : List Fragment) : List Module :=
  [resourcesAgg (dedup_fragments fragments), functionsAgg (dedup_fragments fragments),
   modelsAgg (dedup_fragments fragments), constsAgg (dedup_fragments fragments)]
    ++ commonPart (dedup_fragments fragments) ++ parseModsAux (dedup_fragments fragments)

theorem Modules.parse_eq (fragments : List Fragment) :
    Modules.parse fragments
      = resAll fragments
        ++ [Module.EntryPoint (use_text (dedup_fragments fragments)
             ++ mod_text (resAll fragments) ++ entryLines (dedup_fragments fragments))] := by
  rw [Modules.parse]
  rfl

theorem parseModsAux_nil : parseModsAux [] = [] := by
  rw [parseModsAux]

theorem parseModsAux_cons_mod (name : Str) (fs : List Fragment) (rest : List Fragment) :
    parseModsAux (Fragment.Mod name (some fs) :: rest)
      = Module.Lib name (mod_text (Modules.parse fs)) (Modules.parse fs)
          :: parseModsAux rest := by
  rw [parseModsAux]

theorem parseModsAux_mem (l : List Fragment) :
    ∀ m ∈ parseModsAux l,
      ∃ n fs, Fragment.Mod n (some fs) ∈ l
        ∧ m = Module.Lib n (mod_text (Modules.parse fs)) (Modules.parse fs) := by
  induction l with
  | nil =>
    rw [parseModsAux_nil]
    intro m hm
    cases hm
  | cons f rest ih =>
    intro m hm
    cases f with
    | Mod name fragments =>
      cases fragments with
      | some fs =>
        rw [parseModsAux_cons_mod] at hm
        rcases List.mem_cons.mp hm with rfl | hm
        · exact ⟨name, fs, List.mem_cons_self _ _, rfl⟩
        · rcases ih m hm with ⟨n, fs2, hmem, heq⟩
          exact ⟨n, fs2, List.mem_cons_of_mem _ hmem, heq⟩
      | none =>
        rw [show parseModsAux (Fragment.Mod name none :: rest) = parseModsAux rest by
              rw [parseModsAux]
              all_goals simp] at hm
        rcases ih m hm with ⟨n, fs2, hmem, heq⟩
        exact ⟨n, fs2, List.mem_cons_of_mem _ hmem, heq⟩
    | EntryPoint content =>
      rw [show parseModsAux (Fragment.EntryPoint content :: rest) = parseModsAux rest by
            rw [parseModsAux]
            all_goals simp] at hm
      rcases ih m hm with ⟨n, fs2, hmem, heq⟩
      exact ⟨n, fs2, List.mem_cons_of_mem _ hmem, heq⟩
    | ApiResource name content =>
      rw [show parseModsAux (Fragment.ApiResource name content :: rest) = parseModsAux rest by
            rw [parseModsAux]
            all_goals simp] at hm
      rcases ih m hm with ⟨n, fs2, hmem, heq⟩
      exact ⟨n, fs2, List.mem_cons_of_mem _ hmem, heq⟩
    | Function name content =>
      rw [show parseModsAux (Fragment.Function name content :: rest) = parseModsAux rest by
            rw [parseModsAux]
            all_goals simp] at hm
      rcases ih m hm with ⟨n, fs2, hmem, heq⟩
      exact ⟨n, fs2, List.mem_cons_of_mem _ hmem, heq⟩
    | Model name content =>
      rw [show parseModsAux (Fragment.Model name content :: rest) = parseModsAux rest by
            rw [parseModsAux]
            all_goals simp] at hm
      rcases ih m hm with ⟨n, fs2, hmem, heq⟩
      exact ⟨n, fs2, List.mem_cons_of_mem _ hmem, heq⟩
    | Const content =>
      rw [show parseModsAux (Fragment.Const content :: rest) = parseModsAux rest by
            rw [parseModsAux]
            all_goals simp] at hm
      rcases ih m hm with ⟨n, fs2, hmem, heq⟩
      exact ⟨n, fs2, List.mem_cons_of_mem _ hmem, heq⟩
    | Use content =>
      rw [show parseModsAux (Fragment.Use content :: rest) = parseModsAux rest by
            rw [parseModsAux]
            all_goals simp] at hm
      rcases ih m hm with ⟨n, fs2, hmem, heq⟩
      exact ⟨n, fs2, List.mem_cons_of_mem _ hmem, heq⟩
    | Common content =>
      rw [show parseModsAux (Fragment.Common content :: rest) = parseModsAux rest by
            rw [parseModsAux]
            all_goals simp] at hm
      rcases ih m hm with ⟨n, fs2, hmem, heq⟩
      exact ⟨n, fs2, List.mem_cons_of_mem _ hmem, heq⟩

theorem resAll_all_lib (fragments : List Fragment) :
    ∀ m ∈ resAll fragments, ∃ n c ms, m = Module.Lib n c ms := by
  intro m hm
  unfold resAll at hm
  rcases List.mem_append.mp hm with hm | hm
  · rcases List.mem_append.mp hm with hm | hm
    · simp only [List.mem_cons, List.mem_singleton, List.not_mem_nil, or_false] at hm
      rcases hm with rfl | rfl | rfl | rfl
      · exact ⟨_, _, _, rfl⟩
      · exact ⟨_, _, _, rfl⟩
      · exact ⟨_, _, _, rfl⟩
      · exact ⟨_, _, _, rfl⟩
    · unfold commonPart at hm
      by_cases h : commonContent (dedup_fragments fragments) = []
      · rw [if_pos h] at hm
        cases hm
      · rw [if_neg h] at hm
        rcases List.mem_singleton.mp hm with rfl
        exact ⟨_, _, _, rfl⟩
  · rcases parseModsAux_mem _ m hm with ⟨n, fs, _, heq⟩
    exact ⟨_, _, _, heq⟩


/-- C1 (amended): the Module Tree Builder appends an EntryPoint module
at every recursion level, not only the outermost one: the result of
Modules.parse is always a list of Lib modules followed by exactly one
EntryPoint module, so the recursive calls for nested namespaces also
include an EntryPoint module in their result. -/
theorem entry_point_module_at_every_level (fragments : List Fragment) :
    ∃ ms c, Modules.parse fragments = ms ++ [Module.EntryPoint c]
      ∧ ∀ m ∈ ms, ∃ n c2 ms2, m = Module.Lib n c2 ms2 :=
  ⟨resAll fragments, _, Modules.parse_eq fragments, resAll_all_lib fragments⟩

theorem dedup_single_inline_mod :
    dedup_fragments [Fragment.Mod (lit "a") (some [])]
      = [Fragment.Mod (lit "a") (some [])] := by
  rw [dedup_fragments_eq]
  simp [Fragment.isModel, modelNamesList, modelName?, firstSeen, firstSeenAux, modelContents]

/-- C1 (counterexample): for the fragment sequence holding one inline
namespace with empty body, the recursive call for that namespace does
return a Module list containing an EntryPoint module: the Lib module
built for the namespace has Modules.parse [] as its children, and that
list contains an EntryPoint module.  This refutes the claim that inner
levels never produce an EntryPoint module. -/
theorem nested_entry_point_counterexample :
    ∃ c, Module.EntryPoint c ∈ Modules.parse []
      ∧ Module.Lib (lit "a") (mod_text (Modules.parse [])) (Modules.parse [])
          ∈ Modules.parse [Fragment.Mod (lit "a") (some [])] := by
  refine ⟨use_text (dedup_fragments []) ++ mod_text (resAll [])
      ++ entryLines (dedup_fragments []), ?_, ?_⟩
  · rw [Modules.parse_eq]
    exact List.mem_append_right _ (List.mem_singleton_self _)
  · rw [Modules.parse_eq]
    apply List.mem_append_left
    unfold resAll
    apply List.mem_append_right
    rw [dedup_single_inline_mod, parseModsAux_cons_mod]
    exact List.mem_cons_self _ _

theorem mem_resourceChildren {frs : List Fragment} {m : Module}
    (hm : m ∈ resourceChildren frs) :
    ∃ n c, m = Module.Lib n (lib_use_text frs ++ c) [] := by
  rcases List.mem_filterMap.mp hm with ⟨f, hf, hsome⟩
  cases f
  case ApiResource n c => exact ⟨n, c, (Option.some.inj hsome).symm⟩
  all_goals simp at hsome

theorem mem_functionChildren {frs : List Fragment} {m : Module}
    (hm : m ∈ functionChildren frs) :
    ∃ n c, m = Module.Lib n (lib_use_text frs ++ c) [] := by
  rcases List.mem_filterMap.mp hm with ⟨f, hf, hsome⟩
  cases f
  case Function n c => exact ⟨n, c, (Option.some.inj hsome).symm⟩
  all_goals simp at hsome

theorem mem_modelChildren {frs : List Fragment} {m : Module}
    (hm : m ∈ modelChildren frs) :
    ∃ n c, m = Module.Lib n (lib_use_text frs ++ c) [] := by
  rcases List.mem_filterMap.mp hm with ⟨f, hf, hsome⟩
  cases f
  case Model n c => exact ⟨n, c, (Option.some.inj hsome).symm⟩
  all_goals simp at hsome

/-- C5 (amended): at each namespace level, the combined Use-import
block plus the implicit enclosing-scope import is prefixed to the
content of every leaf Lib module generated for an individual Function,
ApiResource or Model fragment, and to the consts module and the common
module (when present); the aggregator modules (resources, functions,
models) and the nested-namespace modules are generated too but carry
only the declare + re-export lines, without the import-block prefix. -/
theorem lib_use_prefix_amended (fragments : List Fragment) :
    (∀ m ∈ resourceChildren (dedup_fragments fragments)
          ++ functionChildren (dedup_fragments fragments)
          ++ modelChildren (dedup_fragments fragments),
        ∃ n c, m = Module.Lib n (lib_use_text (dedup_fragments fragments) ++ c) [])
    ∧ (∃ c, constsAgg (dedup_fragments fragments)
          = Module.Lib (lit "consts") (lib_use_text (dedup_fragments fragments) ++ c) [])
    ∧ (∀ m ∈ commonPart (dedup_fragments fragments),
        m = Module.Lib (lit "common")
              (lib_use_text (dedup_fragments fragments)
                ++ commonContent (dedup_fragments fragments)) [])
    ∧ Modules.parse fragments
        = resAll fragments
          ++ [Module.EntryPoint (use_text (dedup_fragments fragments)
               ++ mod_text (resAll fragments) ++ entryLines (dedup_fragments fragments))]
    ∧ resourcesAgg (dedup_fragments fragments)
        = Module.Lib (lit "resources")
            (mod_text (resourceChildren (dedup_fragments fragments)))
            (resourceChildren (dedup_fragments fragments))
    ∧ functionsAgg (dedup_fragments fragments)
        = Module.Lib (lit "functions")
            (mod_text (functionChildren (dedup_fragments fragments)))
            (functionChildren (dedup_fragments fragments)) := by
  refine ⟨?_, ⟨_, rfl⟩, ?_, Modules.parse_eq fragments, rfl, rfl⟩
  · intro m hm
    rcases List.mem_append.mp hm with hm | hm
    · rcases List.mem_append.mp hm with hm | hm
      · exact mem_resourceChildren hm
      · exact mem_functionChildren hm
    · exact mem_modelChildren hm
  · intro m hm
    unfold commonPart at hm
    by_cases h : commonContent (dedup_fragments fragments) = []
    · rw [if_pos h] at hm
      cases hm
    · rw [if_neg h] at hm
      exact List.mem_singleton.mp hm

def c5Input : List Fragment :=
  [Fragment.Use (lit "use foo;"), Fragment.Function (lit "f") (lit "body")]

/-- C5 (counterexample): the import block is not prefixed to every
generated Lib module of the level: for an input with one Use
declaration and one plain function, the generated resources aggregator
module has as content only the (here empty) declare + re-export lines,
of which the import block is not a prefix. -/
theorem lib_use_prefix_counterexample :
    ∃ ms, Module.Lib (lit "resources") (mod_text []) ms ∈ Modules.parse c5Input
      ∧ (lib_use_text (dedup_fragments c5Input)).isPrefixOf (mod_text []) = false := by
  have h1 : resourcesAgg (dedup_fragments c5Input)
      = Module.Lib (lit "resources") (mod_text []) [] := rfl
  refine ⟨[], ?_, by decide⟩
  rw [Modules.parse_eq]
  apply List.mem_append_left
  unfold resAll
  refine List.mem_append_left _ (List.mem_append_left _ ?_)
  rw [h1]
  exact List.mem_cons_self _ _


theorem isPrefixOf_exists (p : Str) : ∀ l : Str, p.isPrefixOf l = true ↔ ∃ t, p ++ t = l := by
  induction p with
  | nil => intro l; simp [List.isPrefixOf]
  | cons a as ih =>
    intro l
    cases l with
    | nil => simp [List.isPrefixOf]
    | cons b bs =>
      rw [List.isPrefixOf_cons₂]
      simp only [Bool.and_eq_true, beq_iff_eq, ih]
      constructor
      · rintro ⟨rfl, t, rfl⟩
        exact ⟨t, rfl⟩
      · rintro ⟨t, h⟩
        rw [List.cons_append] at h
        injection h with h1 h2
        exact ⟨h1, t, h2⟩

theorem containsSubstr_iff (hay needle : Str) :
    containsSubstr hay needle = true ↔ ∃ p q, hay = p ++ needle ++ q := by
  induction hay with
  | nil =>
    constructor
    · intro h
      have hne : needle = [] := by
        cases needle with
        | nil => rfl
        | cons c cs => simp [containsSubstr, List.isEmpty] at h
      subst hne
      exact ⟨[], [], rfl⟩
    · rintro ⟨p, q, h⟩
      have hne : needle = [] := by
        cases p <;> cases needle <;> simp_all
      subst hne
      simp [containsSubstr, List.isEmpty]
  | cons c rest ih =>
    simp only [containsSubstr, Bool.or_eq_true, isPrefixOf_exists, ih]
    constructor
    · rintro (⟨t, ht⟩ | ⟨p, q, hpq⟩)
      · exact ⟨[], t, by rw [List.nil_append]; exact ht.symm⟩
      · exact ⟨c :: p, q, by rw [hpq]; simp⟩
    · rintro ⟨p, q, hpq⟩
      cases p with
      | nil =>
        left
        exact ⟨q, by simpa using hpq.symm⟩
      | cons x xs =>
        right
        rw [List.cons_append, List.cons_append] at hpq
        injection hpq with h1 h2
        exact ⟨xs, q, h2⟩

theorem any_containsSubstr (content : Str) (ms : List Str) :
    (ms.any fun m => containsSubstr content m) = true
      ↔ ∃ m ∈ ms, ∃ p q, content = p ++ m ++ q := by
  simp [List.any_eq_true, containsSubstr_iff]

theorem is_api_resource_eq_any (content : Str) :
    is_api_resource content = (apiMarkers.any fun m => containsSubstr content m) := by
  simp [is_api_resource, apiMarkers, Bool.or_assoc]

theorem is_api_resource_iff (content : Str) :
    is_api_resource content = true ↔ ∃ m ∈ apiMarkers, ∃ p q, content = p ++ m ++ q := by
  rw [is_api_resource_eq_any]
  exact any_containsSubstr content apiMarkers

theorem parse_cons_fn_main (ctx : ParseContext) (span : SpanB) (item : ItemFn)
    (rest : List Item) (h : item.sig.ident = lit "main") :
    (Fragments._parse ctx (Item.fn span item :: rest)).2
      = Fragment.EntryPoint (ctx.text_between span.start ++ (parse_fn_code ctx item).2)
        :: (Fragments._parse ((parse_fn_code ctx item).1.update_offset span.stop) rest).2 := by
  simp [Fragments._parse, h]

theorem parse_cons_fn_other (ctx : ParseContext) (span : SpanB) (item : ItemFn)
    (rest : List Item) (h : ¬ item.sig.ident = lit "main") :
    (Fragments._parse ctx (Item.fn span item :: rest)).2
      = (if is_api_resource (ctx.text_between span.start
            ++ (parse_fn_code ctx { item with vis := Vis.pub }).2)
         then Fragment.ApiResource item.sig.ident (ctx.text_between span.start
            ++ (parse_fn_code ctx { item with vis := Vis.pub }).2)
         else Fragment.Function item.sig.ident (ctx.text_between span.start
            ++ (parse_fn_code ctx { item with vis := Vis.pub }).2))
        :: (Fragments._parse ((parse_fn_code ctx
            { item with vis := Vis.pub }).1.update_offset span.stop) rest).2 := by
  simp [Fragments._parse, h]

theorem parse_cons_mod_some (ctx : ParseContext) (span : SpanB) (ident : Str)
    (brace : Nat) (items rest : List Item) :
    (Fragments._parse ctx (Item.mod span ident (some (brace, items)) :: rest)).2
      = Fragment.Mod (toSnakeCase ident)
          (some (Fragments._parse (ctx.update_offset brace) items).2)
        :: (Fragments._parse ((Fragments._parse (ctx.update_offset brace) items).1.update_offset
            span.stop) rest).2 := by
  simp [Fragments._parse]

/-- C3: for every parsed function item whose identifier is not the
entry-routine name main, the classifier promotes its visibility to
public (the emitted content serializes the function with its
visibility replaced by pub, after the preceding trivia), and tags the
fragment ApiResource exactly when that serialized text, trivia
included, contains at least one marker of the fixed set (the uppercase
HTTP verb tokens GET, POST, PUT, PATCH, DELETE and the framework
tokens), and Function otherwise. -/
theorem classifier_api_resource_iff_marker (ctx : ParseContext) (span : SpanB)
    (item : ItemFn) (rest : List Item) (h : ¬ item.sig.ident = lit "main") :
    (Fragments._parse ctx (Item.fn span item :: rest)).2
      = (if is_api_resource (ctx.text_between span.start
            ++ (parse_fn_code ctx { item with vis := Vis.pub }).2)
         then Fragment.ApiResource item.sig.ident (ctx.text_between span.start
            ++ (parse_fn_code ctx { item with vis := Vis.pub }).2)
         else Fragment.Function item.sig.ident (ctx.text_between span.start
            ++ (parse_fn_code ctx { item with vis := Vis.pub }).2))
        :: (Fragments._parse ((parse_fn_code ctx
            { item with vis := Vis.pub }).1.update_offset span.stop) rest).2
    ∧ (is_api_resource (ctx.text_between span.start
          ++ (parse_fn_code ctx { item with vis := Vis.pub }).2) = true
        ↔ ∃ m ∈ apiMarkers, ∃ p q,
            ctx.text_between span.start
              ++ (parse_fn_code ctx { item with vis := Vis.pub }).2 = p ++ m ++ q) :=
  ⟨parse_cons_fn_other ctx span item rest h, is_api_resource_iff _⟩

def c3Fn : ItemFn :=
  { attrs := [], vis := Vis.inherited,
    sig := { ident := lit "get_users", tokens := lit "fn get_users ()" },
    block := { brace_open_end := 0, stmts := [] } }

theorem classifier_api_resource_iff_marker_witness :
    (Fragments._parse ⟨[], 0⟩ [Item.fn ⟨0, 0⟩ c3Fn]).2
      = (if is_api_resource ((⟨[], 0⟩ : ParseContext).text_between 0
            ++ (parse_fn_code ⟨[], 0⟩ { c3Fn with vis := Vis.pub }).2)
         then Fragment.ApiResource c3Fn.sig.ident ((⟨[], 0⟩ : ParseContext).text_between 0
            ++ (parse_fn_code ⟨[], 0⟩ { c3Fn with vis := Vis.pub }).2)
         else Fragment.Function c3Fn.sig.ident ((⟨[], 0⟩ : ParseContext).text_between 0
            ++ (parse_fn_code ⟨[], 0⟩ { c3Fn with vis := Vis.pub }).2))
        :: (Fragments._parse ((parse_fn_code (⟨[], 0⟩ : ParseContext)
            { c3Fn with vis := Vis.pub }).1.update_offset 0) []).2
    ∧ (is_api_resource ((⟨[], 0⟩ : ParseContext).text_between 0
          ++ (parse_fn_code ⟨[], 0⟩ { c3Fn with vis := Vis.pub }).2) = true
        ↔ ∃ m ∈ apiMarkers, ∃ p q,
            (⟨[], 0⟩ : ParseContext).text_between 0
              ++ (parse_fn_code ⟨[], 0⟩ { c3Fn with vis := Vis.pub }).2 = p ++ m ++ q) :=
  classifier_api_resource_iff_marker ⟨[], 0⟩ ⟨0, 0⟩ c3Fn [] (by decide)


/-- C4 (counterexample): a function named getUsers is classified as a
Function fragment whose name is the identifier getUsers verbatim,
which is not the canonical lowercase underscore-separated form
(toSnakeCase yields get_users), refuting the claim that every named
fragment carries the canonical form of the original identifier. -/
theorem fn_name_not_canonical_counterexample :
    (Fragments._parse ⟨[], 0⟩
        [Item.fn ⟨0, 0⟩ ⟨[], Vis.inherited, ⟨lit "getUsers", lit "fn getUsers ()"⟩, ⟨0, []⟩⟩]).2
      = [Fragment.Function (lit "getUsers") (lit " pub fn getUsers () \x7b\x7d")]
    ∧ ¬ lit "getUsers" = toSnakeCase (lit "getUsers") := by
  constructor
  · simp [Fragments._parse, parse_fn_code, parseStmts, ParseContext.text_between,
      ParseContext.update_offset, sliceBytes, dropBytes, takeBytes, joinSep, visTok,
      is_api_resource, containsSubstr, lit]
  · decide

/-- C4 (amended): the classifier applies the case normalizer only to
Model and Mod fragment names (the struct, enum, trait, trait-alias,
type-alias and union identifiers, the impl target type, and the
namespace identifier); ApiResource and Function fragments instead
carry the original function identifier verbatim, so their names are in
canonical form only when the identifier already is. -/
theorem classifier_name_normalization (ctx : ParseContext) (rest : List Item) :
    (∀ span ident tokens,
       (Fragments._parse ctx (Item.struct span ident tokens :: rest)).2
         = Fragment.Model (toSnakeCase ident) (ctx.text_between span.start ++ tokens)
             :: (Fragments._parse (ctx.update_offset span.stop) rest).2)
    ∧ (∀ span ident tokens,
       (Fragments._parse ctx (Item.enum span ident tokens :: rest)).2
         = Fragment.Model (toSnakeCase ident) (ctx.text_between span.start ++ tokens)
             :: (Fragments._parse (ctx.update_offset span.stop) rest).2)
    ∧ (∀ span ident tokens,
       (Fragments._parse ctx (Item.trait span ident tokens :: rest)).2
         = Fragment.Model (toSnakeCase ident) (ctx.text_between span.start ++ tokens)
             :: (Fragments._parse (ctx.update_offset span.stop) rest).2)
    ∧ (∀ span ident tokens,
       (Fragments._parse ctx (Item.traitAlias span ident tokens :: rest)).2
         = Fragment.Model (toSnakeCase ident) (ctx.text_between span.start ++ tokens)
             :: (Fragments._parse (ctx.update_offset span.stop) rest).2)
    ∧ (∀ span ident tokens,
       (Fragments._parse ctx (Item.typeAlias span ident tokens :: rest)).2
         = Fragment.Model (toSnakeCase ident) (ctx.text_between span.start ++ tokens)
             :: (Fragments._parse (ctx.update_offset span.stop) rest).2)
    ∧ (∀ span ident tokens,
       (Fragments._parse ctx (Item.union span ident tokens :: rest)).2
         = Fragment.Model (toSnakeCase ident) (ctx.text_between span.start ++ tokens)
             :: (Fragments._parse (ctx.update_offset span.stop) rest).2)
    ∧ (∀ span self_ty tokens,
       (Fragments._parse ctx (Item.impl span self_ty tokens :: rest)).2
         = Fragment.Model (toSnakeCase self_ty) (ctx.text_between span.start ++ tokens)
             :: (Fragments._parse (ctx.update_offset span.stop) rest).2)
    ∧ (∀ span ident brace items,
       (Fragments._parse ctx (Item.mod span ident (some (brace, items)) :: rest)).2
         = Fragment.Mod (toSnakeCase ident)
             (some (Fragments._parse (ctx.update_offset brace) items).2)
           :: (Fragments._parse ((Fragments._parse (ctx.update_offset brace)
               items).1.update_offset span.stop) rest).2)
    ∧ (∀ span ident,
       (Fragments._parse ctx (Item.mod span ident none :: rest)).2
         = Fragment.Mod (toSnakeCase ident) none
             :: (Fragments._parse (ctx.update_offset span.stop) rest).2)
    ∧ (∀ span item, ¬ item.sig.ident = lit "main" →
       (Fragments._parse ctx (Item.fn span item :: rest)).2
         = (if is_api_resource (ctx.text_between span.start
               ++ (parse_fn_code ctx { item with vis := Vis.pub }).2)
            then Fragment.ApiResource item.sig.ident (ctx.text_between span.start
               ++ (parse_fn_code ctx { item with vis := Vis.pub }).2)
            else Fragment.Function item.sig.ident (ctx.text_between span.start
               ++ (parse_fn_code ctx { item with vis := Vis.pub }).2))
           :: (Fragments._parse ((parse_fn_code ctx
               { item with vis := Vis.pub }).1.update_offset span.stop) rest).2) := by
  refine ⟨?_, ?_, ?_, ?_, ?_, ?_, ?_, ?_, ?_, ?_⟩
  · intro span ident tokens
    simp [Fragments._parse]
  · intro span ident tokens
    simp [Fragments._parse]
  · intro span ident tokens
    simp [Fragments._parse]
  · intro span ident tokens
    simp [Fragments._parse]
  · intro span ident tokens
    simp [Fragments._parse]
  · intro span ident tokens
    simp [Fragments._parse]
  · intro span self_ty tokens
    simp [Fragments._parse]
  · intro span ident brace items
    exact parse_cons_mod_some ctx span ident brace items rest
  · intro span ident
    simp [Fragments._parse]
  · intro span item h
    exact parse_cons_fn_other ctx span item rest h

def c4Fn : ItemFn :=
  { attrs := [], vis := Vis.inherited,
    sig := { ident := lit "g", tokens := lit "fn g ()" },
    block := { brace_open_end := 0, stmts := [] } }

theorem classifier_name_normalization_witness :
    (Fragments._parse ⟨[], 0⟩ (Item.fn ⟨0, 0⟩ c4Fn :: [])).2
      = (if is_api_resource ((⟨[], 0⟩ : ParseContext).text_between 0
            ++ (parse_fn_code ⟨[], 0⟩ { c4Fn with vis := Vis.pub }).2)
         then Fragment.ApiResource c4Fn.sig.ident ((⟨[], 0⟩ : ParseContext).text_between 0
            ++ (parse_fn_code ⟨[], 0⟩ { c4Fn with vis := Vis.pub }).2)
         else Fragment.Function c4Fn.sig.ident ((⟨[], 0⟩ : ParseContext).text_between 0
            ++ (parse_fn_code ⟨[], 0⟩ { c4Fn with vis := Vis.pub }).2))
        :: (Fragments._parse ((parse_fn_code (⟨[], 0⟩ : ParseContext)
            { c4Fn with vis := Vis.pub }).1.update_offset 0) []).2 :=
  (classifier_name_normalization ⟨[], 0⟩ []).2.2.2.2.2.2.2.2.2 ⟨0, 0⟩ c4Fn (by decide)


/-- C9: a function whose identifier is exactly the entry-routine name
main is classified EntryPoint at every recursion level: directly in an
item list, and likewise inside a nested namespace's inline body, where
the recursive call applies the same entry-routine check. -/
theorem main_classified_entry_point_every_level (ctx : ParseContext)
    (span span2 : SpanB) (name : Str) (brace : Nat) (item : ItemFn)
    (items rest : List Item) (h : item.sig.ident = lit "main") :
    (∃ c tail, (Fragments._parse ctx (Item.fn span item :: rest)).2
        = Fragment.EntryPoint c :: tail)
    ∧ (∃ c innerTail tail,
        (Fragments._parse ctx
            (Item.mod span name (some (brace, Item.fn span2 item :: items)) :: rest)).2
          = Fragment.Mod (toSnakeCase name)
              (some (Fragment.EntryPoint c :: innerTail)) :: tail) := by
  constructor
  · exact ⟨_, _, parse_cons_fn_main ctx span item rest h⟩
  · have hmod := parse_cons_mod_some ctx span name brace (Item.fn span2 item :: items) rest
    rw [parse_cons_fn_main (ctx.update_offset brace) span2 item items h] at hmod
    exact ⟨_, _, _, hmod⟩

def c9Fn : ItemFn :=
  { attrs := [], vis := Vis.inherited,
    sig := { ident := lit "main", tokens := lit "fn main ()" },
    block := { brace_open_end := 0, stmts := [] } }

theorem main_classified_entry_point_every_level_witness :
    (∃ c tail, (Fragments._parse ⟨[], 0⟩ [Item.fn ⟨0, 0⟩ c9Fn]).2
        = Fragment.EntryPoint c :: tail)
    ∧ (∃ c innerTail tail,
        (Fragments._parse ⟨[], 0⟩
            [Item.mod ⟨0, 0⟩ (lit "api") (some (0, [Item.fn ⟨0, 0⟩ c9Fn]))]).2
          = Fragment.Mod (toSnakeCase (lit "api"))
              (some (Fragment.EntryPoint c :: innerTail)) :: tail) :=
  main_classified_entry_point_every_level ⟨[], 0⟩ ⟨0, 0⟩ ⟨0, 0⟩ (lit "api") 0 c9Fn [] []
    (by decide)

/-- End offset of the statement before the current one: the end of
the last preceding statement, or the offset just past the body's
opening brace when there is none. -/
def prevStop (off : Nat) : List Stmt → Nat
  | [] => off
  | p :: rest => prevStop p.stop rest

theorem parseStmts_decompose (input : Str) (s1 : List Stmt) :
    ∀ (stmt : Stmt) (s2 : List Stmt) (off : Nat),
      ∃ pre post,
        (parseStmts { input := input, current_offset := off } (s1 ++ stmt :: s2)).2
          = pre ++ sliceBytes input (prevStop off s1) stmt.start ++ stmt.tokens ++ post := by
  induction s1 with
  | nil =>
    intro stmt s2 off
    refine ⟨[], (parseStmts { input := input, current_offset := stmt.stop } s2).2, ?_⟩
    simp [parseStmts, ParseContext.text_between, ParseContext.update_offset, prevStop]
  | cons a s1' ih =>
    intro stmt s2 off
    rcases ih stmt s2 a.stop with ⟨pre, post, hpp⟩
    refine ⟨sliceBytes input off a.start ++ a.tokens ++ pre, post, ?_⟩
    have hps : prevStop off (a :: s1') = prevStop a.stop s1' := rfl
    rw [List.cons_append]
    simp only [parseStmts, ParseContext.text_between, ParseContext.update_offset]
    rw [hpp, hps]
    simp [List.append_assoc]

/-- C6: for every statement of the entry routine's body, the
serialized EntryPoint fragment contains, immediately before that
statement's serialized text, the exact source text (line comments and
blank lines included) lying between the end of the previous statement
(or just past the body's opening brace, for the first statement) and
the statement's start. -/
theorem entry_routine_trivia_preserved (ctx : ParseContext) (span : SpanB)
    (item : ItemFn) (rest : List Item) (s1 : List Stmt) (stmt : Stmt) (s2 : List Stmt)
    (hmain : item.sig.ident = lit "main") (hstmts : item.block.stmts = s1 ++ stmt :: s2) :
    ∃ c tail pre post,
      (Fragments._parse ctx (Item.fn span item :: rest)).2 = Fragment.EntryPoint c :: tail
      ∧ c = pre
          ++ sliceBytes ctx.input (prevStop item.block.brace_open_end s1) stmt.start
          ++ stmt.tokens ++ post := by
  rcases parseStmts_decompose ctx.input s1 stmt s2 item.block.brace_open_end
    with ⟨pre, post, hpp⟩
  have hcode : (parse_fn_code ctx item).2
      = (joinSep [] item.attrs ++ lit " " ++ visTok item.vis ++ lit " "
          ++ item.sig.tokens ++ lit " " ++ lit "\x7b")
        ++ (parseStmts { input := ctx.input, current_offset := item.block.brace_open_end }
            item.block.stmts).2 ++ lit "\x7d" := rfl
  refine ⟨_, _, ctx.text_between span.start
      ++ (joinSep [] item.attrs ++ lit " " ++ visTok item.vis ++ lit " "
          ++ item.sig.tokens ++ lit " " ++ lit "\x7b") ++ pre,
    post ++ lit "\x7d", parse_cons_fn_main ctx span item rest hmain, ?_⟩
  rw [hcode, hstmts, hpp]
  simp [List.append_assoc]

def c6Fn : ItemFn :=
  { attrs := [], vis := Vis.inherited,
    sig := { ident := lit "main", tokens := lit "fn main ()" },
    block := { brace_open_end := 12,
               stmts := [⟨13, 15, lit "a ;"⟩, ⟨22, 24, lit "b ;"⟩] } }

def c6Ctx : ParseContext :=
  { input := lit "fn main () \x7b a; // hi\nb; \x7d", current_offset := 0 }

theorem entry_routine_trivia_preserved_witness :
    ∃ c tail pre post,
      (Fragments._parse c6Ctx [Item.fn ⟨0, 26⟩ c6Fn]).2 = Fragment.EntryPoint c :: tail
      ∧ c = pre ++ sliceBytes c6Ctx.input (prevStop 12 [⟨13, 15, lit "a ;"⟩]) 22
          ++ lit "b ;" ++ post :=
  entry_routine_trivia_preserved c6Ctx ⟨0, 26⟩ c6Fn [] [⟨13, 15, lit "a ;"⟩]
    ⟨22, 24, lit "b ;"⟩ [] (by decide) rfl


theorem lib_use_prefix_amended_witness :
    ∃ n c, Module.Lib (lit "f") (lib_use_text (dedup_fragments c5Input) ++ lit "body") []
        = Module.Lib n (lib_use_text (dedup_fragments c5Input) ++ c) [] :=
  (lib_use_prefix_amended c5Input).1
    (Module.Lib (lit "f") (lib_use_text (dedup_fragments c5Input) ++ lit "body") [])
    (by
      apply List.mem_append_left
      apply List.mem_append_right
      rw [show functionChildren (dedup_fragments c5Input)
          = [Module.Lib (lit "f") (lib_use_text (dedup_fragments c5Input) ++ lit "body") []]
        from rfl]
      exact List.mem_cons_self _ _)

theorem byte_offset_scalar_units_witness :
    dropLinesCh (lit "ab\n√cd") (2 - 1) = some (lit "√cd")
    ∧ (byte_offset (lit "ab\n√cd") ⟨2, 2⟩
        = some ((utf8Len (lit "ab\n√cd") - utf8Len (lit "√cd"))
            + utf8Len ((lit "√cd").take 2))
      ∧ ∃ k, (utf8Len (lit "ab\n√cd") - utf8Len (lit "√cd"))
            + utf8Len ((lit "√cd").take 2)
          = utf8Len ((lit "ab\n√cd").take k)) :=
  ⟨by decide, byte_offset_scalar_units (lit "ab\n√cd") 2 2 (lit "√cd") (by decide)⟩

/-- Observable effects of a run of main. -/
inductive MainEffect where
  | stderrLine (s : Str)
  | fsWrite (path : List Str) (content : Str)
  | fsCreateDir (path : List Str)

/-- The outcome of a run of main: the ordered effect trace and whether
the process terminates with success status. -/
structure MainOutcome where
  effects : List MainEffect
  success : Bool

/-- Model of main (source lines 568-586): look for the fixed entry
file at root/src/main.rs; when it does not exist, print a diagnostic
line to standard error and terminate with success without touching the
filesystem; otherwise run the parse-and-write pipeline, which is
abstract here (it stands for Code::parse followed by Code::write and
is passed as an argument). -/
def mainModel (fsHas : List Str → Bool)
    (pipeline : List Str → List Str → MainOutcome) (path : List Str) : MainOutcome :=
  let src_path := path ++ [lit "src"]
  let entry_point_path := src_path ++ [lit "main.rs"]
  if fsHas entry_point_path = false then
    { effects := [MainEffect.stderrLine (lit "main.rs does not exist")], success := true }
  else
    pipeline entry_point_path src_path

/-- C7: for every root directory whose src/main.rs entry file does not
exist, the program prints a diagnostic to standard error, performs no
filesystem write and creates no directory, and terminates with success
status. -/
theorem main_missing_entry_no_op (fsHas : List Str → Bool)
    (pipeline : List Str → List Str → MainOutcome) (path : List Str)
    (h : fsHas (path ++ [lit "src"] ++ [lit "main.rs"]) = false) :
    mainModel fsHas pipeline path
      = { effects := [MainEffect.stderrLine (lit "main.rs does not exist")], success := true }
    ∧ (∀ e ∈ (mainModel fsHas pipeline path).effects,
        (∀ p c, ¬ e = MainEffect.fsWrite p c) ∧ (∀ p, ¬ e = MainEffect.fsCreateDir p))
    ∧ (mainModel fsHas pipeline path).success = true := by
  have hm : mainModel fsHas pipeline path
      = { effects := [MainEffect.stderrLine (lit "main.rs does not exist")],
          success := true } := by
    simp only [mainModel]
    rw [h]
    simp
  refine ⟨hm, ?_, by rw [hm]⟩
  rw [hm]
  intro e he
  simp only [List.mem_singleton] at he
  subst he
  exact ⟨fun p c hc => MainEffect.noConfusion hc, fun p hc => MainEffect.noConfusion hc⟩

theorem main_missing_entry_no_op_witness :
    mainModel (fun _ => false) (fun _ _ => ⟨[], false⟩) []
      = { effects := [MainEffect.stderrLine (lit "main.rs does not exist")], success := true }
    ∧ (∀ e ∈ (mainModel (fun _ => false) (fun _ _ => ⟨[], false⟩) []).effects,
        (∀ p c, ¬ e = MainEffect.fsWrite p c) ∧ (∀ p, ¬ e = MainEffect.fsCreateDir p))
    ∧ (mainModel (fun _ => false) (fun _ _ => ⟨[], false⟩) []).success = true :=
  main_missing_entry_no_op (fun _ => false) (fun _ _ => ⟨[], false⟩) [] rfl

/-- A filesystem operation of the Writer. -/
inductive FsOp where
  | createDirAll (path : List Str)
  | writeFile (path : List Str) (content : Str)

def FsOp.path : FsOp → List Str
  | .createDirAll p => p
  | .writeFile p _ => p

mutual

/-- The Writer for one Module (source lines 327-355): an EntryPoint
module writes the fixed file name main.rs in the given directory; a
Lib module creates a subdirectory of its name when it has children,
writes all children into that subdirectory, then writes its own
sibling file name.rs.  Filesystem effects are modelled as the ordered
trace of operations; paths are component lists. -/
def Module.write : Module → List Str → List FsOp
  | Module.EntryPoint content, path => [FsOp.writeFile (path ++ [lit "main.rs"]) content]
  | Module.Lib name content modules, path =>
    (if modules.isEmpty then [] else [FsOp.createDirAll (path ++ [name])])
      ++ Modules.writeAll modules (path ++ [name])
      ++ [FsOp.writeFile (path ++ [name ++ lit ".rs"]) content]

/-- The Writer over a Module list (source lines 529-535). -/
def Modules.writeAll : List Module → List Str → List FsOp
  | [], _ => []
  | m :: rest, path => Module.write m path ++ Modules.writeAll rest path

end

theorem mem_writeAll {ms : List Module} {p : List Str} {op : FsOp}
    (h : op ∈ Modules.writeAll ms p) : ∃ m ∈ ms, op ∈ Module.write m p := by
  induction ms with
  | nil =>
    rw [show Modules.writeAll [] p = [] by rw [Modules.writeAll]] at h
    cases h
  | cons m rest ih =>
    rw [show Modules.writeAll (m :: rest) p = Module.write m p ++ Modules.writeAll rest p
        by rw [Modules.writeAll]] at h
    rcases List.mem_append.mp h with h | h
    · exact ⟨m, List.mem_cons_self _ _, h⟩
    · rcases ih h with ⟨m2, hm2, hop⟩
      exact ⟨m2, List.mem_cons_of_mem _ hm2, hop⟩

theorem write_ops_under_aux (n : Nat) :
    ∀ m : Module, sizeOf m ≤ n → ∀ (p : List Str) (op : FsOp),
      op ∈ Module.write m p → ∃ r, op.path = p ++ r := by
  induction n with
  | zero =>
    intro m hm
    cases m <;> simp at hm
  | succ n ih =>
    intro m hm p op hop
    cases m with
    | EntryPoint content =>
      rw [show Module.write (Module.EntryPoint content) p
          = [FsOp.writeFile (p ++ [lit "main.rs"]) content] by rw [Module.write]] at hop
      rcases List.mem_singleton.mp hop with rfl
      exact ⟨[lit "main.rs"], rfl⟩
    | Lib name content modules =>
      rw [show Module.write (Module.Lib name content modules) p
          = (if modules.isEmpty then [] else [FsOp.createDirAll (p ++ [name])])
            ++ Modules.writeAll modules (p ++ [name])
            ++ [FsOp.writeFile (p ++ [name ++ lit ".rs"]) content]
          by rw [Module.write]] at hop
      rcases List.mem_append.mp hop with hop | hop
      · rcases List.mem_append.mp hop with hop | hop
        · by_cases he : modules.isEmpty
          · rw [if_pos he] at hop
            cases hop
          · rw [if_neg he] at hop
            rcases List.mem_singleton.mp hop with rfl
            exact ⟨[name], rfl⟩
        · rcases mem_writeAll hop with ⟨m2, hm2, hop2⟩
          have hsz : sizeOf m2 ≤ n := by
            have h1 := List.sizeOf_lt_of_mem hm2
            have h2 : sizeOf modules < sizeOf (Module.Lib name content modules) := by
              simp
            omega
          rcases ih m2 hsz (p ++ [name]) op hop2 with ⟨r, hr⟩
          exact ⟨[name] ++ r, by rw [hr, List.append_assoc]⟩
      · rcases List.mem_singleton.mp hop with rfl
        exact ⟨[name ++ lit ".rs"], rfl⟩

theorem write_ops_under (m : Module) (p : List Str) (op : FsOp)
    (h : op ∈ Module.write m p) : ∃ r, op.path = p ++ r :=
  write_ops_under_aux (sizeOf m) m (Nat.le_refl _) p op h

/-- C10: a Lib module with no children creates no directory and
writes exactly one file name.rs in the current output directory; a Lib
module with children first creates the subdirectory of its name, then
writes all children into that subdirectory (every child operation's
path extends it), and only afterwards writes the sibling file name.rs
in the current directory. -/
theorem module_write_layout (name content : Str) (modules : List Module)
    (path : List Str) :
    Module.write (Module.Lib name content modules) path
      = (if modules.isEmpty then [] else [FsOp.createDirAll (path ++ [name])])
        ++ Modules.writeAll modules (path ++ [name])
        ++ [FsOp.writeFile (path ++ [name ++ lit ".rs"]) content]
    ∧ Module.write (Module.Lib name content []) path
        = [FsOp.writeFile (path ++ [name ++ lit ".rs"]) content]
    ∧ ∀ op ∈ Modules.writeAll modules (path ++ [name]),
        ∃ r, op.path = (path ++ [name]) ++ r := by
  refine ⟨by rw [Module.write], ?_, ?_⟩
  · rw [show Module.write (Module.Lib name content []) path
        = (if ([] : List Module).isEmpty then [] else [FsOp.createDirAll (path ++ [name])])
          ++ Modules.writeAll [] (path ++ [name])
          ++ [FsOp.writeFile (path ++ [name ++ lit ".rs"]) content]
        by rw [Module.write]]
    rw [show Modules.writeAll [] (path ++ [name]) = [] by rw [Modules.writeAll]]
    simp
  · intro op hop
    rcases mem_writeAll hop with ⟨m, hm, hop2⟩
    exact write_ops_under m (path ++ [name]) op hop2

theorem module_write_layout_witness :
    ∃ r, (FsOp.writeFile (([lit "src"] ++ [lit "models"]) ++ [lit "user" ++ lit ".rs"])
        (lit "pub struct User ;")).path
      = ([lit "src"] ++ [lit "models"]) ++ r :=
  (module_write_layout (lit "models") (lit "")
      [Module.Lib (lit "user") (lit "pub struct User ;") []] [lit "src"]).2.2
    (FsOp.writeFile (([lit "src"] ++ [lit "models"]) ++ [lit "user" ++ lit ".rs"])
      (lit "pub struct User ;"))
    (by simp [Modules.writeAll, Module.write])

end Restruct
